import Mathlib

/-!
Verification of the `standalone-stream-server` repository (Go).

This file shallowly embeds the parts of the source relevant to the claims:

* `internal/middleware/flowcontrol.go` — `TokenBucket`, `StreamingFlowController`
* `internal/middleware/middleware.go` — `ConnectionLimiter`
* `internal/handlers/video.go` — `handleRangeRequest`, `streamVideoFile`, `StreamVideo`
* `internal/services/video.go` — recursive catalog scan and `FindVideoByID`
* `internal/scheduler` task storage — `GetPendingTasks`

Modelling conventions:

* Go `int`/`int64` arithmetic is modelled by unbounded `Int`; all quantities in
  the claims (token counts, file sizes, counters) stay far within the `int64`
  range, so two's-complement wrap-around is not modelled.  Go integer division
  truncates toward zero and is rendered as `Int.tdiv`.
* Go `time.Time`/`time.Duration` values are modelled as `Int` nanosecond counts
  (`time.Second = 1000000000`).  The current wall-clock time is passed to each
  operation as an explicit `now : Int` argument.
* Go strings are modelled as `List Char` where character-level parsing matters
  (range headers, paths, identifiers) and as `String` for opaque data.
* Mutex/locking is not modelled: each claim concerns the sequential semantics
  of one operation or of a sequence of operations.
-/

/-! ## Token bucket (`internal/middleware/flowcontrol.go`, lines 8-84) -/

/-- Embeds the Go struct `TokenBucket`.  Times and durations are nanosecond
counts (`refillInterval`, `lastRefill`). -/
structure TokenBucket where
  capacity : Int
  tokens : Int
  refillRate : Int
  refillInterval : Int
  lastRefill : Int
deriving Repr, DecidableEq

/-- Embeds `NewTokenBucket`: the bucket starts full, `lastRefill` is the
creation time (`time.Now()` is the explicit argument `now`). -/
def NewTokenBucket (capacity refillRate refillInterval now : Int) : TokenBucket :=
  { capacity := capacity
    tokens := capacity
    refillRate := refillRate
    refillInterval := refillInterval
    lastRefill := now }

/-- Embeds `(*TokenBucket).refill` (flowcontrol.go lines 69-84).  Note the
source sets `tb.lastRefill = now` (line 82), not `lastRefill + intervals*I`. -/
def TokenBucket.refill (now : Int) (tb : TokenBucket) : TokenBucket :=
  let elapsed := now - tb.lastRefill
  if elapsed ≥ tb.refillInterval then
    let intervals := elapsed.tdiv tb.refillInterval
    let tokensToAdd := intervals * tb.refillRate
    let t := tb.tokens + tokensToAdd
    { tb with
      tokens := if t > tb.capacity then tb.capacity else t
      lastRefill := now }
  else
    tb

/-- Embeds `(*TokenBucket).TakeToken` (flowcontrol.go lines 30-42). -/
def TokenBucket.TakeToken (now : Int) (tb : TokenBucket) : Bool × TokenBucket :=
  let tb := tb.refill now
  if tb.tokens > 0 then (true, { tb with tokens := tb.tokens - 1 }) else (false, tb)

/-- Embeds `(*TokenBucket).TakeTokens` (flowcontrol.go lines 45-57). -/
def TokenBucket.TakeTokens (now count : Int) (tb : TokenBucket) : Bool × TokenBucket :=
  let tb := tb.refill now
  if tb.tokens ≥ count then (true, { tb with tokens := tb.tokens - count }) else (false, tb)

/-- Embeds `(*TokenBucket).AvailableTokens` (flowcontrol.go lines 60-66):
returns the token count after a refill, together with the updated bucket. -/
def TokenBucket.AvailableTokens (now : Int) (tb : TokenBucket) : Int × TokenBucket :=
  let tb := tb.refill now
  (tb.tokens, tb)

/-! ## Connection limiter (`internal/middleware/middleware.go`, lines 164-205)

The Go limiter is a buffered channel of capacity `maxConns` used as a counting
semaphore; `active` models `len(cl.semaphore)`.  A non-blocking send succeeds
exactly when the buffer is not full, a non-blocking receive succeeds exactly
when it is not empty. -/

/-- Embeds the Go struct `ConnectionLimiter`. -/
structure ConnectionLimiter where
  maxConns : Nat
  active : Nat
deriving Repr, DecidableEq

/-- Embeds `NewConnectionLimiter`: a fresh channel is empty. -/
def NewConnectionLimiter (maxConns : Nat) : ConnectionLimiter :=
  { maxConns := maxConns, active := 0 }

/-- Embeds `(*ConnectionLimiter).Acquire` (middleware.go lines 179-186):
non-blocking send on the semaphore channel. -/
def ConnectionLimiter.Acquire (cl : ConnectionLimiter) : Bool × ConnectionLimiter :=
  if cl.active < cl.maxConns then (true, { cl with active := cl.active + 1 }) else (false, cl)

/-- Embeds `(*ConnectionLimiter).Release` (middleware.go lines 189-195):
non-blocking receive; an empty semaphore only logs a warning. -/
def ConnectionLimiter.Release (cl : ConnectionLimiter) : ConnectionLimiter :=
  if cl.active > 0 then { cl with active := cl.active - 1 } else cl

/-- Embeds `(*ConnectionLimiter).GetActiveConnections`. -/
def ConnectionLimiter.GetActiveConnections (cl : ConnectionLimiter) : Nat :=
  cl.active

/-- Embeds `(*ConnectionLimiter).GetMaxConnections`. -/
def ConnectionLimiter.GetMaxConnections (cl : ConnectionLimiter) : Nat :=
  cl.maxConns

/-! ## Streaming flow controller (`internal/middleware/flowcontrol.go`, lines 86-173) -/

/-- Embeds the Go struct `FlowControlStats`. -/
structure FlowControlStats where
  TotalRequests : Int
  RateLimited : Int
  ConnectionLimited : Int
  Accepted : Int
deriving Repr, DecidableEq

/-- Embeds the Go struct `StreamingFlowController`. -/
structure StreamingFlowController where
  tokenBucket : TokenBucket
  connectionLimiter : ConnectionLimiter
  stats : FlowControlStats
deriving Repr, DecidableEq

/-- Embeds `NewStreamingFlowController` (flowcontrol.go lines 103-109):
bucket capacity `tokensPerSecond*2`, refill `tokensPerSecond` per second. -/
def NewStreamingFlowController (maxConnections : Nat) (tokensPerSecond now : Int) :
    StreamingFlowController :=
  { tokenBucket := NewTokenBucket (tokensPerSecond * 2) tokensPerSecond 1000000000 now
    connectionLimiter := NewConnectionLimiter maxConnections
    stats := ⟨0, 0, 0, 0⟩ }

/-- Embeds `(*StreamingFlowController).CheckAccess` (flowcontrol.go lines
112-138): increment the total counter, try the token bucket, then try the
connection semaphore; exactly one of the three outcome counters is bumped. -/
def StreamingFlowController.CheckAccess (now : Int) (sfc : StreamingFlowController) :
    (Bool × String) × StreamingFlowController :=
  let sfc := { sfc with stats.TotalRequests := sfc.stats.TotalRequests + 1 }
  match sfc.tokenBucket.TakeToken now with
  | (false, tb) =>
      ((false, "rate_limited"),
        { sfc with tokenBucket := tb, stats.RateLimited := sfc.stats.RateLimited + 1 })
  | (true, tb) =>
      match sfc.connectionLimiter.Acquire with
      | (false, cl) =>
          ((false, "connection_limited"),
            { sfc with tokenBucket := tb, connectionLimiter := cl,
                       stats.ConnectionLimited := sfc.stats.ConnectionLimited + 1 })
      | (true, cl) =>
          ((true, "accepted"),
            { sfc with tokenBucket := tb, connectionLimiter := cl,
                       stats.Accepted := sfc.stats.Accepted + 1 })

/-- Embeds `(*StreamingFlowController).ReleaseConnection` (flowcontrol.go
lines 141-143). -/
def StreamingFlowController.ReleaseConnection (sfc : StreamingFlowController) :
    StreamingFlowController :=
  { sfc with connectionLimiter := sfc.connectionLimiter.Release }

/-! ## Operation sequences over the limiter and the controller -/

/-- An operation on a `ConnectionLimiter`: a client either tries to acquire a
slot or releases one. -/
inductive ConnOp where
  | acquire
  | release
deriving Repr, DecidableEq

/-- Runs a sequence of limiter operations, ignoring the `Acquire` results. -/
def runConnOps (cl : ConnectionLimiter) : List ConnOp → ConnectionLimiter
  | [] => cl
  | ConnOp.acquire :: ops => runConnOps cl.Acquire.2 ops
  | ConnOp.release :: ops => runConnOps cl.Release ops

/-- An operation on the flow controller: `CheckAccess` at a given time, or
`ReleaseConnection`. -/
inductive FlowOp where
  | check (now : Int)
  | release
deriving Repr, DecidableEq

/-- Runs a sequence of flow-controller operations, ignoring the decisions. -/
def runFlowOps (sfc : StreamingFlowController) : List FlowOp → StreamingFlowController
  | [] => sfc
  | FlowOp.check now :: ops => runFlowOps (sfc.CheckAccess now).2 ops
  | FlowOp.release :: ops => runFlowOps sfc.ReleaseConnection ops

/-! ## Helper lemmas on the flow-control primitives -/

theorem TakeToken_true_tokens (now : Int) (tb0 : TokenBucket)
    (h : (tb0.TakeToken now).1 = true) :
    (tb0.TakeToken now).2.tokens = (tb0.refill now).tokens - 1 := by
  unfold TokenBucket.TakeToken at *
  by_cases h1 : (tb0.refill now).tokens > 0 <;> simp [h1] at h ⊢

theorem runConnOps_bounded (ops : List ConnOp) : ∀ cl : ConnectionLimiter,
    cl.active ≤ cl.maxConns →
    (runConnOps cl ops).active ≤ (runConnOps cl ops).maxConns
    ∧ (runConnOps cl ops).maxConns = cl.maxConns := by
  induction ops with
  | nil => exact fun cl h => ⟨h, rfl⟩
  | cons op ops ih =>
    intro cl h
    cases op with
    | acquire =>
      have hstep : cl.Acquire.2.active ≤ cl.Acquire.2.maxConns ∧
          cl.Acquire.2.maxConns = cl.maxConns := by
        unfold ConnectionLimiter.Acquire
        by_cases h1 : cl.active < cl.maxConns <;> simp [h1] <;> omega
      have h2 := ih cl.Acquire.2 hstep.1
      simp only [runConnOps]
      exact ⟨h2.1, h2.2.trans hstep.2⟩
    | release =>
      have hstep : cl.Release.active ≤ cl.Release.maxConns ∧
          cl.Release.maxConns = cl.maxConns := by
        unfold ConnectionLimiter.Release
        by_cases h1 : cl.active > 0 <;> simp [h1] <;> omega
      have h2 := ih cl.Release hstep.1
      simp only [runConnOps]
      exact ⟨h2.1, h2.2.trans hstep.2⟩

/-- Statistics comparison: every counter of `a` is at most the counter of `b`. -/
def statsLe (a b : FlowControlStats) : Prop :=
  a.TotalRequests ≤ b.TotalRequests ∧ a.RateLimited ≤ b.RateLimited
  ∧ a.ConnectionLimited ≤ b.ConnectionLimited ∧ a.Accepted ≤ b.Accepted

theorem CheckAccess_stats_step (now : Int) (sfc : StreamingFlowController) :
    (sfc.CheckAccess now).2.stats.TotalRequests = sfc.stats.TotalRequests + 1
    ∧ (sfc.CheckAccess now).2.stats.RateLimited
        + (sfc.CheckAccess now).2.stats.ConnectionLimited
        + (sfc.CheckAccess now).2.stats.Accepted
      = sfc.stats.RateLimited + sfc.stats.ConnectionLimited + sfc.stats.Accepted + 1
    ∧ statsLe sfc.stats (sfc.CheckAccess now).2.stats := by
  by_cases h1 : (sfc.tokenBucket.refill now).tokens > 0 <;>
  by_cases h2 : sfc.connectionLimiter.active < sfc.connectionLimiter.maxConns <;>
    simp [StreamingFlowController.CheckAccess, TokenBucket.TakeToken,
      ConnectionLimiter.Acquire, statsLe, h1, h2] <;> omega

theorem statsLe_refl (a : FlowControlStats) : statsLe a a := by
  unfold statsLe; omega

theorem statsLe_trans {a b c : FlowControlStats} (h1 : statsLe a b) (h2 : statsLe b c) :
    statsLe a c := by
  unfold statsLe at *; omega

theorem runFlowOps_statsLe (ops : List FlowOp) : ∀ sfc : StreamingFlowController,
    statsLe sfc.stats (runFlowOps sfc ops).stats := by
  induction ops with
  | nil => exact fun sfc => statsLe_refl _
  | cons op ops ih =>
    intro sfc
    cases op with
    | check now =>
      exact statsLe_trans (CheckAccess_stats_step now sfc).2.2 (ih (sfc.CheckAccess now).2)
    | release => exact ih sfc.ReleaseConnection

theorem runFlowOps_append (ops : List FlowOp) : ∀ (more : List FlowOp)
    (sfc : StreamingFlowController),
    runFlowOps sfc (ops ++ more) = runFlowOps (runFlowOps sfc ops) more := by
  induction ops with
  | nil => intro more sfc; rfl
  | cons op ops ih =>
    intro more sfc
    cases op with
    | check now => simpa [runFlowOps] using ih more (sfc.CheckAccess now).2
    | release => simpa [runFlowOps] using ih more sfc.ReleaseConnection

theorem runFlowOps_identity (ops : List FlowOp) : ∀ sfc : StreamingFlowController,
    sfc.stats.TotalRequests
      = sfc.stats.RateLimited + sfc.stats.ConnectionLimited + sfc.stats.Accepted →
    (runFlowOps sfc ops).stats.TotalRequests
      = (runFlowOps sfc ops).stats.RateLimited
        + (runFlowOps sfc ops).stats.ConnectionLimited
        + (runFlowOps sfc ops).stats.Accepted := by
  induction ops with
  | nil => exact fun sfc h => h
  | cons op ops ih =>
    intro sfc h
    cases op with
    | check now =>
      have hs := CheckAccess_stats_step now sfc
      exact ih (sfc.CheckAccess now).2 (by omega)
    | release => exact ih sfc.ReleaseConnection h

/-! ## Claims C3, C4, C5, C9 -/

/-- Claim C3: every call of `CheckAccess` first increments the total counter;
then it attempts to take one token — on refusal it increments the rate-limited
counter and returns `(false, "rate_limited")` without touching the semaphore;
then it attempts to acquire a semaphore slot — on refusal it increments the
connection-limited counter and returns `(false, "connection_limited")` and the
consumed token is not returned to the bucket; otherwise it increments the
accepted counter and returns `(true, "accepted")`. -/
theorem CheckAccess_order (now : Int) (sfc : StreamingFlowController) :
    ((sfc.CheckAccess now).2.stats.TotalRequests = sfc.stats.TotalRequests + 1)
    ∧ ((sfc.tokenBucket.TakeToken now).1 = false →
        (sfc.CheckAccess now).1 = (false, "rate_limited")
        ∧ (sfc.CheckAccess now).2.stats.RateLimited = sfc.stats.RateLimited + 1
        ∧ (sfc.CheckAccess now).2.stats.ConnectionLimited = sfc.stats.ConnectionLimited
        ∧ (sfc.CheckAccess now).2.stats.Accepted = sfc.stats.Accepted
        ∧ (sfc.CheckAccess now).2.connectionLimiter = sfc.connectionLimiter
        ∧ (sfc.CheckAccess now).2.tokenBucket = (sfc.tokenBucket.TakeToken now).2)
    ∧ ((sfc.tokenBucket.TakeToken now).1 = true → sfc.connectionLimiter.Acquire.1 = false →
        (sfc.CheckAccess now).1 = (false, "connection_limited")
        ∧ (sfc.CheckAccess now).2.stats.ConnectionLimited = sfc.stats.ConnectionLimited + 1
        ∧ (sfc.CheckAccess now).2.stats.RateLimited = sfc.stats.RateLimited
        ∧ (sfc.CheckAccess now).2.stats.Accepted = sfc.stats.Accepted
        ∧ (sfc.CheckAccess now).2.connectionLimiter = sfc.connectionLimiter
        ∧ (sfc.CheckAccess now).2.tokenBucket.tokens = (sfc.tokenBucket.refill now).tokens - 1)
    ∧ ((sfc.tokenBucket.TakeToken now).1 = true → sfc.connectionLimiter.Acquire.1 = true →
        (sfc.CheckAccess now).1 = (true, "accepted")
        ∧ (sfc.CheckAccess now).2.stats.Accepted = sfc.stats.Accepted + 1
        ∧ (sfc.CheckAccess now).2.stats.RateLimited = sfc.stats.RateLimited
        ∧ (sfc.CheckAccess now).2.stats.ConnectionLimited = sfc.stats.ConnectionLimited
        ∧ (sfc.CheckAccess now).2.connectionLimiter = sfc.connectionLimiter.Acquire.2
        ∧ (sfc.CheckAccess now).2.tokenBucket = (sfc.tokenBucket.TakeToken now).2) := by
  by_cases h1 : (sfc.tokenBucket.refill now).tokens > 0 <;>
  by_cases h2 : sfc.connectionLimiter.active < sfc.connectionLimiter.maxConns <;>
    simp [StreamingFlowController.CheckAccess, TokenBucket.TakeToken,
      ConnectionLimiter.Acquire, h1, h2]

/-- Witness for claim C3 at concrete inputs: a controller with an empty bucket
is rate-limited; a fresh controller with tokens and a free slot is accepted. -/
theorem CheckAccess_order_witness :
    ((NewStreamingFlowController 1 5 0).CheckAccess 0).1 = (true, "accepted")
    ∧ ((NewStreamingFlowController 1 0 0).CheckAccess 0).1 = (false, "rate_limited") :=
  ⟨((CheckAccess_order 0 (NewStreamingFlowController 1 5 0)).2.2.2
      (by decide) (by decide)).1,
   ((CheckAccess_order 0 (NewStreamingFlowController 1 0 0)).2.1 (by decide)).1⟩

/-- Claim C4 (counterexample): the claim states that `refill` advances
`last_refill` by exactly `intervals * I`, preserving the fractional remainder
of the elapsed time.  At capacity 10, rate 5, interval 2, `last_refill = 0`
and `now = 3` (elapsed 3 = one whole interval plus remainder 1), the source
instead sets `last_refill` to `now = 3`, not to `0 + 1*2 = 2`: the remainder
is discarded. -/
theorem refill_lastRefill_counterexample :
    (TokenBucket.refill 3 ⟨10, 0, 5, 2, 0⟩).tokens = 5
    ∧ (TokenBucket.refill 3 ⟨10, 0, 5, 2, 0⟩).lastRefill = 3
    ∧ (TokenBucket.refill 3 ⟨10, 0, 5, 2, 0⟩).lastRefill ≠
        (⟨10, 0, 5, 2, 0⟩ : TokenBucket).lastRefill + ((3 - 0 : Int).tdiv 2) * 2 := by
  decide

theorem refill_eq_pos (now : Int) (tb : TokenBucket)
    (h1 : now - tb.lastRefill ≥ tb.refillInterval) :
    tb.refill now =
      { tb with
        tokens :=
          if tb.tokens + ((now - tb.lastRefill).tdiv tb.refillInterval) * tb.refillRate
              > tb.capacity
          then tb.capacity
          else tb.tokens + ((now - tb.lastRefill).tdiv tb.refillInterval) * tb.refillRate
        lastRefill := now } := by
  simp only [TokenBucket.refill]
  rw [if_pos h1]

theorem refill_eq_neg (now : Int) (tb : TokenBucket)
    (h1 : ¬ now - tb.lastRefill ≥ tb.refillInterval) :
    tb.refill now = tb := by
  simp only [TokenBucket.refill]
  rw [if_neg h1]

/-- Claim C4 (amended): on every bucket operation the refill step, when at
least one whole interval has elapsed, adds `floor(elapsed/I) * R` tokens capped
at the capacity and sets `last_refill` to the current time — discarding the
fractional remainder of the elapsed time rather than crediting it later; when
less than one interval has elapsed the bucket is unchanged; and the token
count never exceeds the capacity (assuming it did not before, and the
requested `TakeTokens` count is non-negative). -/
theorem refill_lazy_amended (tb : TokenBucket) (now count : Int)
    (h : tb.tokens ≤ tb.capacity) (hc : 0 ≤ count) :
    (tb.refill now).capacity = tb.capacity
    ∧ (tb.refill now).tokens ≤ tb.capacity
    ∧ (now - tb.lastRefill ≥ tb.refillInterval →
        (tb.refill now).lastRefill = now
        ∧ (tb.refill now).tokens =
            min (tb.tokens + ((now - tb.lastRefill).tdiv tb.refillInterval) * tb.refillRate)
              tb.capacity)
    ∧ (now - tb.lastRefill < tb.refillInterval → tb.refill now = tb)
    ∧ (tb.TakeToken now).2.tokens ≤ tb.capacity
    ∧ (tb.TakeTokens now count).2.tokens ≤ tb.capacity
    ∧ (tb.AvailableTokens now).2.tokens ≤ tb.capacity := by
  have hr : (tb.refill now).capacity = tb.capacity ∧ (tb.refill now).tokens ≤ tb.capacity := by
    by_cases h1 : now - tb.lastRefill ≥ tb.refillInterval
    · rw [refill_eq_pos now tb h1]
      refine ⟨rfl, ?_⟩
      dsimp only
      split <;> omega
    · rw [refill_eq_neg now tb h1]
      exact ⟨rfl, h⟩
  refine ⟨hr.1, hr.2, ?_, ?_, ?_, ?_, ?_⟩
  · intro h1
    rw [refill_eq_pos now tb h1]
    refine ⟨rfl, ?_⟩
    dsimp only
    split <;> omega
  · intro h1
    exact refill_eq_neg now tb (by omega)
  · have h3 := hr.2
    simp only [TokenBucket.TakeToken]
    split <;> dsimp only <;> omega
  · have h3 := hr.2
    simp only [TokenBucket.TakeTokens]
    split <;> dsimp only <;> omega
  · exact hr.2

/-- Witness for claim C4 (amended) at capacity 10, rate 5, interval 2,
`now = 3`, `count = 1`: the refill fires, caps at nothing, and moves
`last_refill` to 3. -/
theorem refill_lazy_amended_witness :
    (0 : Int) ≤ 10
    ∧ (3 : Int) - 0 ≥ 2
    ∧ (TokenBucket.refill 3 ⟨10, 0, 5, 2, 0⟩).lastRefill = 3
    ∧ (TokenBucket.refill 3 ⟨10, 0, 5, 2, 0⟩).tokens =
        min ((0 : Int) + ((3 - 0 : Int).tdiv 2) * 5) 10 :=
  ⟨by decide, by decide,
   ((refill_lazy_amended ⟨10, 0, 5, 2, 0⟩ 3 1 (by decide) (by decide)).2.2.1 (by decide)).1,
   ((refill_lazy_amended ⟨10, 0, 5, 2, 0⟩ 3 1 (by decide) (by decide)).2.2.1 (by decide)).2⟩

/-- Claim C5: for every maximum `M` and every sequence of `Acquire`/`Release`
calls starting from a fresh limiter, the active count stays at most `M` (it is
a `Nat`, hence never negative); `Acquire` at a full limiter returns `false`
without changing the state; `Release` at zero active connections leaves the
state unchanged (the double release is dropped, only logged). -/
theorem ConnectionLimiter_invariant (M : Nat) (ops : List ConnOp) :
    (runConnOps (NewConnectionLimiter M) ops).active ≤ M
    ∧ (runConnOps (NewConnectionLimiter M) ops).maxConns = M
    ∧ (∀ cl : ConnectionLimiter, cl.active = cl.maxConns → cl.Acquire = (false, cl))
    ∧ (∀ cl : ConnectionLimiter, cl.active = 0 → cl.Release = cl) := by
  have h := runConnOps_bounded ops (NewConnectionLimiter M) (by simp [NewConnectionLimiter])
  have hmax : (runConnOps (NewConnectionLimiter M) ops).maxConns = M := by
    simpa [NewConnectionLimiter] using h.2
  refine ⟨le_of_le_of_eq h.1 hmax, hmax, ?_, ?_⟩
  · intro cl hfull
    unfold ConnectionLimiter.Acquire
    simp [hfull]
  · intro cl hzero
    unfold ConnectionLimiter.Release
    simp [hzero]

/-- Witness for claim C5 at concrete inputs: a full limiter (max 1, one slot
taken) refuses `Acquire` unchanged; an idle limiter ignores `Release`; three
acquires against max 1 never push the count above 1. -/
theorem ConnectionLimiter_invariant_witness :
    ConnectionLimiter.Acquire ⟨1, 1⟩ = (false, ⟨1, 1⟩)
    ∧ ConnectionLimiter.Release ⟨1, 0⟩ = ⟨1, 0⟩
    ∧ (runConnOps (NewConnectionLimiter 1)
        [ConnOp.acquire, ConnOp.acquire, ConnOp.acquire]).active ≤ 1 :=
  ⟨(ConnectionLimiter_invariant 1 []).2.2.1 ⟨1, 1⟩ rfl,
   (ConnectionLimiter_invariant 1 []).2.2.2 ⟨1, 0⟩ rfl,
   (ConnectionLimiter_invariant 1 [ConnOp.acquire, ConnOp.acquire, ConnOp.acquire]).1⟩

/-- Claim C9: after any sequence of `CheckAccess` and `ReleaseConnection`
calls from a fresh controller, `TotalRequests = RateLimited +
ConnectionLimited + Accepted`; each `CheckAccess` call increments the total
counter and exactly one of the other three; and every counter is
non-decreasing along any further sequence of operations. -/
theorem flow_counter_identity (mc : Nat) (tps t0 : Int) (ops : List FlowOp) :
    ((runFlowOps (NewStreamingFlowController mc tps t0) ops).stats.TotalRequests
      = (runFlowOps (NewStreamingFlowController mc tps t0) ops).stats.RateLimited
        + (runFlowOps (NewStreamingFlowController mc tps t0) ops).stats.ConnectionLimited
        + (runFlowOps (NewStreamingFlowController mc tps t0) ops).stats.Accepted)
    ∧ (∀ (now : Int) (sfc : StreamingFlowController),
        (sfc.CheckAccess now).2.stats.TotalRequests = sfc.stats.TotalRequests + 1
        ∧ (sfc.CheckAccess now).2.stats.RateLimited
            + (sfc.CheckAccess now).2.stats.ConnectionLimited
            + (sfc.CheckAccess now).2.stats.Accepted
          = sfc.stats.RateLimited + sfc.stats.ConnectionLimited + sfc.stats.Accepted + 1)
    ∧ (∀ (sfc : StreamingFlowController) (more : List FlowOp),
        statsLe sfc.stats (runFlowOps sfc more).stats)
    ∧ (∀ (more : List FlowOp) (sfc : StreamingFlowController),
        runFlowOps sfc (ops ++ more) = runFlowOps (runFlowOps sfc ops) more) :=
  ⟨runFlowOps_identity ops (NewStreamingFlowController mc tps t0) rfl,
   fun now sfc => ⟨(CheckAccess_stats_step now sfc).1, (CheckAccess_stats_step now sfc).2.1⟩,
   fun sfc more => runFlowOps_statsLe more sfc,
   fun more sfc => runFlowOps_append ops more sfc⟩

/-! ## Range request handling (`internal/handlers/video.go`, lines 211-297)

`handleRangeRequest` is embedded over a pure model of the opened file: the
file's bytes are `content : List Nat` and `fileSize` is the size reported by
`os.Stat` (equal to `content.length` for a quiescent filesystem).  `os.File`
reads and `BodyWriter` writes cannot fail in a pure model, so an oracle
`ioErr : Nat → Bool` says whether the read or the write of loop iteration `i`
fails (`file.Read` / `Write` returning an error breaks the loop).  Seeking in
a pure list cannot fail, so the seek-error 500 branch is not modelled. -/

/-- Splits a character list at every occurrence of `sep`; equals Go
`strings.Split(s, sep)` for a one-character separator. -/
def splitSep (sep : Char) : List Char → List (List Char)
  | [] => [[]]
  | c :: cs =>
    let r := splitSep sep cs
    if c = sep then [] :: r else (c :: r.headD []) :: r.tail

/-- Accumulates the numeric value of a decimal digit string. -/
def digitsToNat (ds : List Char) : Nat :=
  ds.foldl (fun acc c => acc * 10 + (c.toNat - '0'.toNat)) 0

/-- Embeds Go `strconv.ParseInt(s, 10, 64)` as used by the range handler:
`none` exactly when Go reports an error (empty string, a non-digit character,
or a value outside the signed 64-bit range) — the handler only branches on
the error, never on the partially-parsed value. -/
def goParseInt64 (s : List Char) : Option Int :=
  match s with
  | [] => none
  | c :: rest =>
    let neg : Bool := c = '-'
    let digits := if c = '-' ∨ c = '+' then rest else s
    if digits = [] then none
    else if digits.all Char.isDigit then
      let n : Int := (digitsToNat digits : Nat)
      let v : Int := if neg then -n else n
      if v < -(2 ^ 63) ∨ 2 ^ 63 - 1 < v then none else some v
    else none

/-- Embeds `fmt.Sprintf` with verb `%d` on an `int64`. -/
def goItoa (i : Int) : List Char :=
  if i < 0 then '-' :: Nat.toDigits 10 i.natAbs else Nat.toDigits 10 i.toNat

/-- Outcome of `handleRangeRequest`: a 416 response with an error message, or
a 206 response carrying the `Content-Range` header value, the
`Content-Length`, and the bytes written to the body. -/
inductive RangeResult where
  | notSatisfiable (msg : String)
  | content206 (contentRange : List Char) (contentLength : Int) (body : List Nat)
deriving Repr, DecidableEq

/-- HTTP status of a `RangeResult` (`fiber.StatusRequestedRangeNotSatisfiable`
= 416, `fiber.StatusPartialContent` = 206). -/
def RangeResult.status : RangeResult → Nat
  | .notSatisfiable _ => 416
  | .content206 _ _ _ => 206

/-- The 206 chunk loop (video.go lines 275-294): read at most `chunkSize`
bytes (shrunk to `remaining` for the last chunk), stop on a read error
(including EOF with nothing read) or a write error, otherwise append the bytes
read and continue.  A read at position `pos` returns
`min chunk (content.length - pos)` bytes.  `fuel` only bounds the number of
iterations to make the model total: every non-final iteration consumes at
least one byte of `rem`, so calling with `fuel = rem` computes exactly the
value of the Go loop. -/
def rangeLoopGo (content : List Nat) (chunkSize : Nat) (ioErr : Nat → Bool) :
    (fuel iter pos rem : Nat) → List Nat
  | 0, _, _, _ => []
  | fuel + 1, iter, pos, rem =>
    if rem = 0 then []
    else
      let chunk := min chunkSize rem
      let n := min chunk (content.length - pos)
      if n = 0 then []
      else if ioErr iter then []
      else (content.drop pos).take n
           ++ rangeLoopGo content chunkSize ioErr fuel (iter + 1) (pos + n) (rem - n)

/-- The 206 chunk loop entered with `remaining = rem`. -/
def rangeLoop (content : List Nat) (chunkSize : Nat) (ioErr : Nat → Bool)
    (pos rem : Nat) : List Nat :=
  rangeLoopGo content chunkSize ioErr rem 0 pos rem

/-- Embeds video.go lines 231-239: an empty start field leaves `start = 0`;
a non-empty one must parse and be non-negative, otherwise 416. -/
def parseRangeStart (p0 : List Char) : Option Int :=
  if p0 = [] then some 0
  else
    match goParseInt64 p0 with
    | none => none
    | some s => if s < 0 then none else some s

/-- Embeds video.go lines 241-249: an empty end field, a parse error, or an
end at or past the file size all set `end = fileSize - 1`. -/
def computeRangeEnd (p1 : List Char) (fileSize : Int) : Int :=
  if p1 = [] then fileSize - 1
  else
    match goParseInt64 p1 with
    | none => fileSize - 1
    | some e => if e ≥ fileSize then fileSize - 1 else e

/-- Embeds video.go lines 251-296: the validity check `start > end || start >=
fileSize` and, for a valid range, the 206 headers and the chunk loop. -/
def serveRange (chunkSize : Nat) (content : List Nat) (fileSize start endv : Int)
    (ioErr : Nat → Bool) : RangeResult :=
  if start > endv ∨ start ≥ fileSize then .notSatisfiable "Invalid range values"
  else
    .content206
      ("bytes ".toList ++ goItoa start ++ '-' :: goItoa endv ++ '/' :: goItoa fileSize)
      (endv - start + 1)
      (rangeLoop content chunkSize ioErr start.toNat (endv - start + 1).toNat)

/-- Embeds `(*VideoHandler).handleRangeRequest` (video.go lines 211-297):
check the `bytes=` prefix, split the specification at every `-`, require
exactly two parts, parse the start, compute the clamped end, then serve. -/
def handleRangeRequest (chunkSize : Nat) (content : List Nat) (fileSize : Int)
    (rangeHeader : List Char) (ioErr : Nat → Bool) : RangeResult :=
  if "bytes=".toList.isPrefixOf rangeHeader then
    match splitSep '-' (rangeHeader.drop "bytes=".toList.length) with
    | [p0, p1] =>
      match parseRangeStart p0 with
      | none => .notSatisfiable "Invalid start range"
      | some start =>
          serveRange chunkSize content fileSize start (computeRangeEnd p1 fileSize) ioErr
    | _ => .notSatisfiable "Invalid range specification"
  else .notSatisfiable "Invalid range format"

example :
    handleRangeRequest 4 [0, 1, 2, 3, 4, 5, 6, 7, 8, 9] 10 "bytes=2-5".toList (fun _ => false)
      = RangeResult.content206 "bytes 2-5/10".toList 4 [2, 3, 4, 5] := by decide

example :
    handleRangeRequest 4 [0, 1, 2, 3, 4, 5, 6, 7, 8, 9] 10 "bytes=-3".toList (fun _ => false)
      = RangeResult.content206 "bytes 0-3/10".toList 4 [0, 1, 2, 3] := by decide

example :
    handleRangeRequest 4 [0, 1, 2] 3 "bytes=0-abc".toList (fun _ => false)
      = RangeResult.content206 "bytes 0-2/3".toList 3 [0, 1, 2] := by decide

example :
    handleRangeRequest 4 [0, 1, 2] 3 "bytes=3-3".toList (fun _ => false)
      = RangeResult.notSatisfiable "Invalid range values" := by decide

/-! ## Helper lemmas on splitting, parsing and the chunk loop -/

theorem splitSep_ne_nil (sep : Char) (s : List Char) : splitSep sep s ≠ [] := by
  cases s with
  | nil => simp [splitSep]
  | cons c cs => simp only [splitSep]; split <;> simp

theorem splitSep_append (sep : Char) (a b : List Char) :
    splitSep sep (a ++ sep :: b) = splitSep sep a ++ splitSep sep b := by
  induction a with
  | nil => simp [splitSep]
  | cons c a ih =>
    by_cases hc : c = sep
    · simp [splitSep, hc, ih]
    · obtain ⟨h0, t0, heq⟩ := List.exists_cons_of_ne_nil (splitSep_ne_nil sep a)
      simp [splitSep, hc, ih, heq]

theorem splitSep_not_mem (sep : Char) (s : List Char) (h : sep ∉ s) :
    splitSep sep s = [s] := by
  induction s with
  | nil => rfl
  | cons c cs ih =>
    simp only [List.mem_cons, not_or] at h
    have hc : ¬ (c = sep) := fun hh => h.1 hh.symm
    simp [splitSep, hc, ih h.2]

theorem rangeLoopGo_all_ok (content : List Nat) (chunkSize : Nat) (hcs : 1 ≤ chunkSize) :
    ∀ (fuel pos rem iter : Nat), rem ≤ fuel → pos + rem ≤ content.length →
    rangeLoopGo content chunkSize (fun _ => false) fuel iter pos rem
      = (content.drop pos).take rem := by
  intro fuel
  induction fuel with
  | zero =>
    intro pos rem iter h1 h2
    have hz : rem = 0 := by omega
    subst hz
    simp [rangeLoopGo]
  | succ fuel ih =>
    intro pos rem iter h1 h2
    by_cases hrem : rem = 0
    · subst hrem; simp [rangeLoopGo]
    · have hne : ¬ (min (min chunkSize rem) (content.length - pos) = 0) := by omega
      simp only [rangeLoopGo, if_neg hrem, if_neg hne, Bool.false_eq_true, if_false]
      rw [ih (pos + min (min chunkSize rem) (content.length - pos))
            (rem - min (min chunkSize rem) (content.length - pos)) (iter + 1)
            (by omega) (by omega)]
      rw [← List.drop_drop, ← List.take_add]
      congr 1
      omega

theorem rangeLoop_all_ok (content : List Nat) (chunkSize : Nat) (pos rem : Nat)
    (hcs : 1 ≤ chunkSize) (h2 : pos + rem ≤ content.length) :
    rangeLoop content chunkSize (fun _ => false) pos rem = (content.drop pos).take rem :=
  rangeLoopGo_all_ok content chunkSize hcs rem pos rem 0 le_rfl h2

theorem goParseInt64_ne_nil {s : List Char} {v : Int} (h : goParseInt64 s = some v) :
    s ≠ [] := by
  intro hh
  rw [hh] at h
  exact Option.noConfusion h

theorem handleRangeRequest_reduce (chunkSize : Nat) (content : List Nat) (fileSize : Int)
    (sStr eStr : List Char) (s : Int) (ioErr : Nat → Bool)
    (hs : parseRangeStart sStr = some s)
    (hsd : '-' ∉ sStr) (hed : '-' ∉ eStr) :
    handleRangeRequest chunkSize content fileSize
        ("bytes=".toList ++ sStr ++ '-' :: eStr) ioErr
      = serveRange chunkSize content fileSize s (computeRangeEnd eStr fileSize) ioErr := by
  have hpre : ("bytes=".toList).isPrefixOf ("bytes=".toList ++ sStr ++ '-' :: eStr) = true := by
    rw [List.isPrefixOf_iff_prefix]
    exact List.prefix_append _ _
  have hsplit : splitSep '-' (sStr ++ '-' :: eStr) = [sStr, eStr] := by
    rw [splitSep_append, splitSep_not_mem _ _ hsd, splitSep_not_mem _ _ hed]
    rfl
  have hdrop : List.drop "bytes=".toList.length ("bytes=".toList ++ sStr ++ '-' :: eStr)
      = sStr ++ '-' :: eStr := List.drop_left _ _
  unfold handleRangeRequest
  rw [if_pos hpre, hdrop, hsplit]
  dsimp only
  rw [hs]

theorem parseRangeStart_of_parse {sStr : List Char} {s : Int}
    (hs : goParseInt64 sStr = some s) (hs0 : 0 ≤ s) :
    parseRangeStart sStr = some s := by
  have hsne := goParseInt64_ne_nil hs
  unfold parseRangeStart
  rw [if_neg hsne, hs]
  dsimp only
  rw [if_neg (by omega : ¬ s < 0)]

theorem computeRangeEnd_eq (p1 : List Char) (fileSize : Int) :
    computeRangeEnd p1 fileSize =
      (match goParseInt64 p1 with
       | none => fileSize - 1
       | some e => if e ≥ fileSize then fileSize - 1 else e) := by
  unfold computeRangeEnd
  by_cases hne : p1 = []
  · subst hne; rfl
  · rw [if_neg hne]

theorem computeRangeEnd_le (p1 : List Char) (fileSize : Int) :
    computeRangeEnd p1 fileSize ≤ fileSize - 1 := by
  rw [computeRangeEnd_eq]
  cases hp : goParseInt64 p1 with
  | none => exact le_refl _
  | some e =>
    show (if e ≥ fileSize then fileSize - 1 else e) ≤ fileSize - 1
    split <;> omega

/-! ## Claims C1, C10, C7 -/

/-- Claim C1: for a file of size `T ≥ 1` and a header `bytes=S-E` whose start
field parses to a non-negative integer `s`, the end is `T-1` when omitted or
unparseable and is clamped to `T-1` when at least `T`; after clamping, `s > E`
or `s ≥ T` yields 416; otherwise the response is 206 with Content-Range
`bytes S-E/T`, Content-Length `E-S+1` and, with every read and write
succeeding, a body equal to bytes `S..E` of the file.  In particular
`bytes=0-0` yields one byte and `bytes=T-T` yields 416 (see the witness). -/
theorem range_request_numeric (content : List Nat) (chunkSize : Nat) (fileSize : Int)
    (sStr eStr : List Char) (s E : Int)
    (hTdef : fileSize = (content.length : Int)) (hT : 1 ≤ content.length)
    (hcs : 1 ≤ chunkSize)
    (hs : goParseInt64 sStr = some s) (hs0 : 0 ≤ s)
    (hsd : '-' ∉ sStr) (hed : '-' ∉ eStr)
    (hEdef : E = (match goParseInt64 eStr with
                  | none => fileSize - 1
                  | some e => if e ≥ fileSize then fileSize - 1 else e)) :
    (s > E ∨ s ≥ fileSize →
      handleRangeRequest chunkSize content fileSize
          ("bytes=".toList ++ sStr ++ '-' :: eStr) (fun _ => false)
        = RangeResult.notSatisfiable "Invalid range values")
    ∧ (s ≤ E → s < fileSize →
      handleRangeRequest chunkSize content fileSize
          ("bytes=".toList ++ sStr ++ '-' :: eStr) (fun _ => false)
        = RangeResult.content206
            ("bytes ".toList ++ goItoa s ++ '-' :: goItoa E ++ '/' :: goItoa fileSize)
            (E - s + 1)
            ((content.drop s.toNat).take (E - s + 1).toNat)) := by
  have hstart := parseRangeStart_of_parse hs hs0
  have hmain := handleRangeRequest_reduce chunkSize content fileSize sStr eStr s
    (fun _ => false) hstart hsd hed
  have hend : computeRangeEnd eStr fileSize = E := by
    rw [computeRangeEnd_eq, hEdef]
  have hEle : E ≤ fileSize - 1 := hend ▸ computeRangeEnd_le eStr fileSize
  constructor
  · intro hc
    rw [hmain, hend]
    unfold serveRange
    rw [if_pos hc]
  · intro h1 h2
    rw [hmain, hend]
    unfold serveRange
    rw [if_neg (by omega : ¬ (s > E ∨ s ≥ fileSize))]
    rw [rangeLoop_all_ok content chunkSize s.toNat (E - s + 1).toNat hcs (by omega)]

/-- Witness for claim C1: over the 3-byte file `[7, 8, 9]`, `bytes=0-0`
returns 206 with the single byte 7, and `bytes=3-3` (that is `bytes=T-T`)
returns 416. -/
theorem range_request_numeric_witness :
    handleRangeRequest 2 [7, 8, 9] 3 "bytes=0-0".toList (fun _ => false)
      = RangeResult.content206 "bytes 0-0/3".toList 1 [7]
    ∧ handleRangeRequest 2 [7, 8, 9] 3 "bytes=3-3".toList (fun _ => false)
      = RangeResult.notSatisfiable "Invalid range values" := by
  constructor
  · have h := (range_request_numeric [7, 8, 9] 2 3 "0".toList "0".toList 0 0
      (by decide) (by decide) (by decide) (by decide) (by decide) (by decide) (by decide)
      (by decide)).2 (by decide) (by decide)
    have heq : "bytes=0-0".toList = "bytes=".toList ++ "0".toList ++ '-' :: "0".toList := by
      decide
    rw [heq, h]
    decide
  · have h := (range_request_numeric [7, 8, 9] 2 3 "3".toList "3".toList 3 2
      (by decide) (by decide) (by decide) (by decide) (by decide) (by decide) (by decide)
      (by decide)).1 (by decide)
    have heq : "bytes=3-3".toList = "bytes=".toList ++ "3".toList ++ '-' :: "3".toList := by
      decide
    rw [heq, h]

/-- Claim C10: a header `bytes=S-E` whose start parses to `s` with
`0 ≤ s < T` but whose non-empty end field fails to parse is not rejected:
the end is silently set to `T-1` and the request is served as 206 covering
bytes `S..T-1`. -/
theorem malformed_end_clamped (content : List Nat) (chunkSize : Nat) (fileSize : Int)
    (sStr eStr : List Char) (s : Int)
    (hTdef : fileSize = (content.length : Int)) (_hT : 1 ≤ content.length)
    (hcs : 1 ≤ chunkSize)
    (hs : goParseInt64 sStr = some s) (hs0 : 0 ≤ s) (hsT : s < fileSize)
    (hsd : '-' ∉ sStr) (hed : '-' ∉ eStr)
    (_hene : eStr ≠ []) (hbad : goParseInt64 eStr = none) :
    (handleRangeRequest chunkSize content fileSize
        ("bytes=".toList ++ sStr ++ '-' :: eStr) (fun _ => false)).status = 206
    ∧ handleRangeRequest chunkSize content fileSize
          ("bytes=".toList ++ sStr ++ '-' :: eStr) (fun _ => false)
        = RangeResult.content206
            ("bytes ".toList ++ goItoa s ++ '-' :: goItoa (fileSize - 1) ++ '/' :: goItoa fileSize)
            (fileSize - 1 - s + 1)
            ((content.drop s.toNat).take (fileSize - 1 - s + 1).toNat) := by
  have hstart := parseRangeStart_of_parse hs hs0
  have hmain := handleRangeRequest_reduce chunkSize content fileSize sStr eStr s
    (fun _ => false) hstart hsd hed
  have hend : computeRangeEnd eStr fileSize = fileSize - 1 := by
    rw [computeRangeEnd_eq, hbad]
  have h2 : handleRangeRequest chunkSize content fileSize
      ("bytes=".toList ++ sStr ++ '-' :: eStr) (fun _ => false)
      = RangeResult.content206
          ("bytes ".toList ++ goItoa s ++ '-' :: goItoa (fileSize - 1) ++ '/' :: goItoa fileSize)
          (fileSize - 1 - s + 1)
          ((content.drop s.toNat).take (fileSize - 1 - s + 1).toNat) := by
    rw [hmain, hend]
    unfold serveRange
    rw [if_neg (by omega : ¬ (s > fileSize - 1 ∨ s ≥ fileSize))]
    rw [rangeLoop_all_ok content chunkSize s.toNat (fileSize - 1 - s + 1).toNat hcs (by omega)]
  exact ⟨by rw [h2]; rfl, h2⟩

/-- Witness for claim C10: `bytes=0-abc` over the 3-byte file `[5, 6, 7]` is
served as 206 covering the whole file. -/
theorem malformed_end_clamped_witness :
    handleRangeRequest 4 [5, 6, 7] 3 "bytes=0-abc".toList (fun _ => false)
      = RangeResult.content206 "bytes 0-2/3".toList 3 [5, 6, 7] := by
  have h := (malformed_end_clamped [5, 6, 7] 4 3 "0".toList "abc".toList 0
    (by decide) (by decide) (by decide) (by decide) (by decide) (by decide) (by decide)
    (by decide) (by decide) (by decide)).2
  have heq : "bytes=0-abc".toList = "bytes=".toList ++ "0".toList ++ '-' :: "abc".toList := by
    decide
  rw [heq, h]
  decide

/-- Claim C7 (counterexample): the claim states that a header with an empty
start field such as `bytes=-3` is answered 416.  Over a 10-byte file the
source instead leaves `start = 0` (video.go line 228: the zero value is kept
when `rangeParts[0]` is empty) and serves 206 covering bytes 0 through 3. -/
theorem empty_start_counterexample :
    (handleRangeRequest 4 [0, 1, 2, 3, 4, 5, 6, 7, 8, 9] 10 "bytes=-3".toList
        (fun _ => false)).status = 206
    ∧ handleRangeRequest 4 [0, 1, 2, 3, 4, 5, 6, 7, 8, 9] 10 "bytes=-3".toList
        (fun _ => false)
      = RangeResult.content206 "bytes 0-3/10".toList 4 [0, 1, 2, 3]
    ∧ (206 : Nat) ≠ 416 := by
  decide

/-- Claim C7 (amended): for a file of size `T ≥ 1`, a header `bytes=-E` whose
start field is empty and whose end field parses to `e ≥ 0` is not answered
416: the empty start is treated as 0 (not as a suffix length), and the request
is served as 206 covering bytes 0 through `e` clamped to `T-1`. -/
theorem empty_start_served (content : List Nat) (chunkSize : Nat) (fileSize : Int)
    (eStr : List Char) (e E : Int)
    (hTdef : fileSize = (content.length : Int)) (_hT : 1 ≤ content.length)
    (hcs : 1 ≤ chunkSize)
    (hed : '-' ∉ eStr) (he : goParseInt64 eStr = some e) (he0 : 0 ≤ e)
    (hEdef : E = if e ≥ fileSize then fileSize - 1 else e) :
    (handleRangeRequest chunkSize content fileSize
        ("bytes=".toList ++ '-' :: eStr) (fun _ => false)).status = 206
    ∧ handleRangeRequest chunkSize content fileSize
          ("bytes=".toList ++ '-' :: eStr) (fun _ => false)
        = RangeResult.content206
            ("bytes ".toList ++ goItoa 0 ++ '-' :: goItoa E ++ '/' :: goItoa fileSize)
            (E + 1)
            (content.take (E + 1).toNat) := by
  have hstart : parseRangeStart [] = some 0 := rfl
  have hmain := handleRangeRequest_reduce chunkSize content fileSize [] eStr 0
    (fun _ => false) hstart (by simp) hed
  rw [List.append_nil] at hmain
  have hend : computeRangeEnd eStr fileSize = E := by
    rw [computeRangeEnd_eq, he, hEdef]
  have hEge : 0 ≤ E := by rw [hEdef]; split <;> omega
  have hEle : E ≤ fileSize - 1 := hend ▸ computeRangeEnd_le eStr fileSize
  have h2 : handleRangeRequest chunkSize content fileSize
      ("bytes=".toList ++ '-' :: eStr) (fun _ => false)
      = RangeResult.content206
          ("bytes ".toList ++ goItoa 0 ++ '-' :: goItoa E ++ '/' :: goItoa fileSize)
          (E + 1)
          (content.take (E + 1).toNat) := by
    rw [hmain, hend]
    unfold serveRange
    rw [if_neg (by omega : ¬ ((0 : Int) > E ∨ (0 : Int) ≥ fileSize))]
    rw [rangeLoop_all_ok content chunkSize (0 : Int).toNat (E - 0 + 1).toNat hcs (by omega)]
    congr 1
    · omega
    · rw [Int.toNat_zero, List.drop_zero]
      congr 1
      omega
  exact ⟨by rw [h2]; rfl, h2⟩

/-- Witness for claim C7 (amended): `bytes=-3` over a 10-byte file yields 206
with bytes 0 through 3. -/
theorem empty_start_served_witness :
    handleRangeRequest 4 [0, 1, 2, 3, 4, 5, 6, 7, 8, 9] 10 "bytes=-3".toList
        (fun _ => false)
      = RangeResult.content206 "bytes 0-3/10".toList 4 [0, 1, 2, 3] := by
  have h := (empty_start_served [0, 1, 2, 3, 4, 5, 6, 7, 8, 9] 4 10 "3".toList 3 3
    (by decide) (by decide) (by decide) (by decide) (by decide) (by decide) (by decide)).2
  have heq : "bytes=-3".toList = "bytes=".toList ++ '-' :: "3".toList := by decide
  rw [heq, h]
  decide

/-! ## Streaming handler (`internal/handlers/video.go`, lines 132-208)

`streamVideoFile` is embedded over an environment describing the outcomes of
its effectful steps: the `os.Stat` result, the `os.Open` outcome, the request
`Range` header, the configured `RangeSupport` flag and chunk size, the file
bytes, and the read/write failure oracle of the 206 loop.  The embedding
returns the HTTP status, the final flow-controller state, and the number of
`ReleaseConnection` calls performed; the Go `defer` on line 173 runs the
release on every path after admission, which the embedding mirrors by
releasing exactly where the deferred call would fire. -/

/-- Outcomes of the effectful steps of one `streamVideoFile` call. -/
structure StreamEnv where
  statSize : Option Int
  openOk : Bool
  rangeHeader : List Char
  rangeSupport : Bool
  chunkSize : Nat
  content : List Nat
  ioErr : Nat → Bool

/-- Embeds `(*VideoHandler).streamVideoFile` (video.go lines 155-208):
admission check (429 on rejection, no release), then — under a deferred
release — stat (500 on failure), the range path (open failure 500, otherwise
`handleRangeRequest`), or the whole-file `SendFile` path (200). -/
def streamVideoFile (now : Int) (sfc : StreamingFlowController) (env : StreamEnv) :
    Nat × StreamingFlowController × Nat :=
  match sfc.CheckAccess now with
  | ((false, _), sfc') => (429, sfc', 0)
  | ((true, _), sfc') =>
    let status : Nat :=
      match env.statSize with
      | none => 500
      | some size =>
        if env.rangeHeader ≠ [] ∧ env.rangeSupport then
          if env.openOk = false then 500
          else (handleRangeRequest env.chunkSize env.content size env.rangeHeader env.ioErr).status
        else 200
    (status, sfc'.ReleaseConnection, 1)

/-- Embeds `(*VideoHandler).StreamVideo` (video.go lines 133-152): a failed
`FindVideoByID` resolve returns 404 before any admission check. -/
def StreamVideo (now : Int) (sfc : StreamingFlowController) (resolveOk : Bool)
    (env : StreamEnv) : Nat × StreamingFlowController × Nat :=
  if resolveOk = false then (404, sfc, 0) else streamVideoFile now sfc env

/-- Claim C2: for every admitted request (`CheckAccess` returned accepted),
`streamVideoFile` performs exactly one `ReleaseConnection` on every exit path
— normal completion, stat failure, open failure, unsatisfiable range, and a
read or write error terminating the 206 loop are all instances of the
universally quantified environment — and the net change to the active
connection count is zero; a rejected request releases nothing (429), and a
request that fails to resolve (404) neither checks access nor releases. -/
theorem stream_release_balanced (now : Int) (sfc : StreamingFlowController)
    (env : StreamEnv) :
    ((sfc.CheckAccess now).1.1 = true →
      (streamVideoFile now sfc env).2.2 = 1
      ∧ (streamVideoFile now sfc env).2.1.connectionLimiter.active
          = sfc.connectionLimiter.active
      ∧ (streamVideoFile now sfc env).2.1.connectionLimiter.maxConns
          = sfc.connectionLimiter.maxConns)
    ∧ ((sfc.CheckAccess now).1.1 = false →
      (streamVideoFile now sfc env).2.2 = 0
      ∧ (streamVideoFile now sfc env).1 = 429
      ∧ (streamVideoFile now sfc env).2.1.connectionLimiter.active
          = sfc.connectionLimiter.active)
    ∧ StreamVideo now sfc false env = (404, sfc, 0) := by
  refine ⟨?_, ?_, rfl⟩ <;>
  · intro hacc
    by_cases h1 : (sfc.tokenBucket.refill now).tokens > 0 <;>
    by_cases h2 : sfc.connectionLimiter.active < sfc.connectionLimiter.maxConns <;>
      simp [streamVideoFile, StreamingFlowController.CheckAccess, TokenBucket.TakeToken,
        ConnectionLimiter.Acquire, StreamingFlowController.ReleaseConnection,
        ConnectionLimiter.Release, h1, h2] at hacc ⊢

/-- Witness for claim C2: with one connection slot and a full bucket, an
admitted request whose stat fails still releases exactly once and restores the
active count to zero; with an empty bucket the request is rejected with 429
and no release. -/
theorem stream_release_balanced_witness :
    (streamVideoFile 0 (NewStreamingFlowController 1 5 0)
        ⟨none, true, [], false, 1, [], fun _ => false⟩).2.2 = 1
    ∧ (streamVideoFile 0 (NewStreamingFlowController 1 5 0)
        ⟨none, true, [], false, 1, [], fun _ => false⟩).2.1.connectionLimiter.active = 0
    ∧ (streamVideoFile 0 (NewStreamingFlowController 1 0 0)
        ⟨none, true, [], false, 1, [], fun _ => false⟩).2.2 = 0 :=
  ⟨((stream_release_balanced 0 (NewStreamingFlowController 1 5 0)
      ⟨none, true, [], false, 1, [], fun _ => false⟩).1 (by decide)).1,
   (((stream_release_balanced 0 (NewStreamingFlowController 1 5 0)
      ⟨none, true, [], false, 1, [], fun _ => false⟩).1 (by decide)).2.1).trans (by decide),
   ((stream_release_balanced 0 (NewStreamingFlowController 1 0 0)
      ⟨none, true, [], false, 1, [], fun _ => false⟩).2.1 (by decide)).1⟩

/-! ## Task storage (`internal/scheduler` task storage file, lines 159-244)

`GetPendingTasks` scans the data directory.  The directory contents are
modelled as a list of entries carrying the `os.DirEntry` name and kind and the
outcome of `readTaskFile` on that entry (`none` for an unreadable or corrupt
file).  `filepath.Ext` is modelled by `pathExt`. -/

/-- The last element of a slash-separated path: the characters after the
final `/` (the whole path when it has no `/`). -/
def lastComp (p : List Char) : List Char :=
  (p.reverse.takeWhile (fun c => c ≠ '/')).reverse

/-- Embeds Go `filepath.Ext`: the suffix of the last path element starting at
its final dot, or empty when the last element has no dot. -/
def pathExt (p : List Char) : List Char :=
  if '.' ∈ lastComp p then '.' :: ((lastComp p).reverse.takeWhile (fun c => c ≠ '.')).reverse
  else []

/-- Embeds the Go struct `TaskRecord` (`Type` is rendered `taskType`;
`CreatedAt` is a unix-nanosecond count). -/
structure TaskRecord where
  id : String
  taskType : String
  data : String
  createdAt : Int
  status : String
deriving Repr, DecidableEq

/-- One entry of the task directory: its name, whether it is a subdirectory,
and the `readTaskFile` outcome for it (`none` = unreadable or corrupt). -/
structure TaskDirEntry where
  name : List Char
  isDir : Bool
  parsed : Option TaskRecord
deriving Repr, DecidableEq

/-- The scan loop of `GetPendingTasks` (lines 227-241): skip directories and
non-`.json` names, skip corrupt files, collect records of the requested type
with status `pending`, and stop as soon as the collected count reaches
`limit` — the check runs after the append. -/
def GetPendingTasksAux (taskType : String) (limit : Nat) :
    List TaskDirEntry → List TaskRecord → List TaskRecord
  | [], tasks => tasks
  | f :: files, tasks =>
    if f.isDir = false ∧ pathExt f.name = ".json".toList then
      match f.parsed with
      | none => GetPendingTasksAux taskType limit files tasks
      | some task =>
        if task.taskType = taskType ∧ task.status = "pending" then
          if (tasks ++ [task]).length ≥ limit then tasks ++ [task]
          else GetPendingTasksAux taskType limit files (tasks ++ [task])
        else GetPendingTasksAux taskType limit files tasks
    else GetPendingTasksAux taskType limit files tasks

/-- Embeds `(*TaskStorage).GetPendingTasks` (lines 215-244). -/
def GetPendingTasks (taskType : String) (limit : Nat) (files : List TaskDirEntry) :
    List TaskRecord :=
  GetPendingTasksAux taskType limit files []

theorem GetPendingTasksAux_length (taskType : String) (limit : Nat) :
    ∀ (files : List TaskDirEntry) (tasks : List TaskRecord),
    (GetPendingTasksAux taskType limit files tasks).length ≤ max limit (tasks.length + 1) := by
  intro files
  induction files with
  | nil =>
    intro tasks
    simp only [GetPendingTasksAux]
    omega
  | cons f files ih =>
    intro tasks
    simp only [GetPendingTasksAux]
    split
    · split
      · exact le_trans (ih tasks) (by omega)
      · split
        · split
          · rename_i hstop
            simp only [List.length_append, List.length_cons, List.length_nil] at hstop ⊢
            omega
          · rename_i hstop
            refine le_trans (ih _) ?_
            simp only [List.length_append, List.length_cons, List.length_nil] at hstop ⊢
            omega
        · exact le_trans (ih tasks) (by omega)
    · exact le_trans (ih tasks) (by omega)

theorem GetPendingTasksAux_mem (taskType : String) (limit : Nat) :
    ∀ (files : List TaskDirEntry) (tasks : List TaskRecord)
      (t : TaskRecord), t ∈ GetPendingTasksAux taskType limit files tasks →
    t ∈ tasks
    ∨ (t.taskType = taskType ∧ t.status = "pending"
       ∧ ∃ f ∈ files, f.isDir = false ∧ pathExt f.name = ".json".toList
           ∧ f.parsed = some t) := by
  intro files
  induction files with
  | nil => intro tasks t ht; exact Or.inl ht
  | cons f files ih =>
    intro tasks t ht
    have lift : t ∈ GetPendingTasksAux taskType limit files tasks →
        t ∈ tasks
        ∨ (t.taskType = taskType ∧ t.status = "pending"
           ∧ ∃ g ∈ f :: files, g.isDir = false ∧ pathExt g.name = ".json".toList
               ∧ g.parsed = some t) := by
      intro h
      rcases ih tasks t h with h' | ⟨h1, h2, g, hg, h3, h4, h5⟩
      · exact Or.inl h'
      · exact Or.inr ⟨h1, h2, g, List.mem_cons_of_mem f hg, h3, h4, h5⟩
    simp only [GetPendingTasksAux] at ht
    split at ht
    · rename_i hf
      split at ht
      · exact lift ht
      · rename_i task hps
        split at ht
        · rename_i hmatch
          have hself : t = task →
              t ∈ tasks
              ∨ (t.taskType = taskType ∧ t.status = "pending"
                 ∧ ∃ g ∈ f :: files, g.isDir = false ∧ pathExt g.name = ".json".toList
                     ∧ g.parsed = some t) := by
            intro he
            subst he
            exact Or.inr ⟨hmatch.1, hmatch.2, f, List.mem_cons_self f files,
              hf.1, hf.2, hps⟩
          split at ht
          · rcases List.mem_append.mp ht with h' | h'
            · exact Or.inl h'
            · exact hself (by simpa using h')
          · rcases ih (tasks ++ [task]) t ht with h' | ⟨h1, h2, g, hg, h3, h4, h5⟩
            · rcases List.mem_append.mp h' with h'' | h''
              · exact Or.inl h''
              · exact hself (by simpa using h'')
            · exact Or.inr ⟨h1, h2, g, List.mem_cons_of_mem f hg, h3, h4, h5⟩
        · exact lift ht
    · exact lift ht

/-- Claim C8 (counterexample): the claim states that `GetPendingTasks(t, n)`
returns at most `n` records for every `n ≥ 0`.  With `n = 0` and one matching
pending task on disk, the source appends the record before checking the limit
(line 236: the check runs after `append`), so one record is returned. -/
theorem pending_limit_counterexample :
    (GetPendingTasks "video_deletion" 0
      [⟨"a.json".toList, false,
        some ⟨"1_video_deletion", "video_deletion", "/v.mp4", 0, "pending"⟩⟩]).length = 1
    ∧ ¬ ((GetPendingTasks "video_deletion" 0
      [⟨"a.json".toList, false,
        some ⟨"1_video_deletion", "video_deletion", "/v.mp4", 0, "pending"⟩⟩]).length ≤ 0) := by
  decide

/-- Claim C8 (amended): `GetPendingTasks(t, n)` returns at most `max n 1`
records — at most `n` whenever `n ≥ 1`; the limit check runs after the append,
so `n = 0` behaves like `n = 1`.  Every returned record has type `t` and
status `pending` and is the parse of some non-directory `.json` file of the
store; a file that fails to parse never appears in the result and does not
abort the scan (the embedding is total and skips it). -/
theorem pending_scan_amended (taskType : String) (limit : Nat)
    (files : List TaskDirEntry) :
    (GetPendingTasks taskType limit files).length ≤ max limit 1
    ∧ (1 ≤ limit → (GetPendingTasks taskType limit files).length ≤ limit)
    ∧ (∀ t ∈ GetPendingTasks taskType limit files,
        t.taskType = taskType ∧ t.status = "pending"
        ∧ ∃ f ∈ files, f.isDir = false ∧ pathExt f.name = ".json".toList
            ∧ f.parsed = some t) := by
  have hlen := GetPendingTasksAux_length taskType limit files []
  refine ⟨by simpa using hlen, fun h1 => ?_, fun t ht => ?_⟩
  · have : max limit 1 = limit := by omega
    simpa [GetPendingTasks, this] using hlen
  · rcases GetPendingTasksAux_mem taskType limit files [] t ht with h | h
    · exact absurd h (List.not_mem_nil t)
    · exact h

/-- Witness for claim C8 (amended): with two matching pending tasks on disk
and limit 1, at most one record is returned. -/
theorem pending_scan_amended_witness :
    (GetPendingTasks "video_deletion" 1
      [⟨"a.json".toList, false,
        some ⟨"1_video_deletion", "video_deletion", "/a.mp4", 0, "pending"⟩⟩,
       ⟨"b.json".toList, false,
        some ⟨"2_video_deletion", "video_deletion", "/b.mp4", 0, "pending"⟩⟩]).length ≤ 1 :=
  (pending_scan_amended "video_deletion" 1
    [⟨"a.json".toList, false,
      some ⟨"1_video_deletion", "video_deletion", "/a.mp4", 0, "pending"⟩⟩,
     ⟨"b.json".toList, false,
      some ⟨"2_video_deletion", "video_deletion", "/b.mp4", 0, "pending"⟩⟩]).2.1 (by decide)

/-! ## Media catalog (`internal/services/video.go`)

The filesystem under one media root is modelled as a finite tree whose
files carry the `os.Stat` size and modification time (a unix timestamp).
Symbolic links do not exist in the model (the scan skips them in the source),
directory read errors do not occur, and the directory entry order is the
order of the `entries` list (`os.ReadDir` sorts by name; no claim depends on
the order).  `strings.ToLower` is modelled per character (the names in the
claims are ASCII). -/

/-- A name paired with a subtree; `file` carries size and modification time. -/
inductive FSTree where
  | file (size modTime : Int)
  | dir (entries : List (List Char × FSTree))

instance : Inhabited FSTree := ⟨.dir []⟩

/-- Embeds Go `strings.ToLower` for ASCII names. -/
def toLowerName (n : List Char) : List Char :=
  n.map Char.toLower

/-- Embeds Go `strings.TrimSuffix`. -/
def goTrimSuffix (s suf : List Char) : List Char :=
  if suf.isSuffixOf s then s.take (s.length - suf.length) else s

/-- Embeds Go `filepath.Join` for the clean, relative-component paths the
catalog builds (`Join(a, b)` with `a` empty is `b`, otherwise `a + "/" + b`;
the `Clean` normalisation of Go is the identity on such paths). -/
def joinPath (a b : List Char) : List Char :=
  if a = [] then b else a ++ '/' :: b

/-- The components of a slash-separated path; the empty path has none. -/
def pathComps (p : List Char) : List (List Char) :=
  if p = [] then [] else splitSep '/' p

/-- Embeds Go `filepath.Base` for the non-empty paths the catalog builds. -/
def pathBase (p : List Char) : List Char :=
  (splitSep '/' p).getLastD []

/-- Embeds Go `strings.SplitN(s, ":", 2)`: `none` when `s` has no colon,
otherwise the parts before and after the first colon. -/
def splitN2Colon : List Char → Option (List Char × List Char)
  | [] => none
  | c :: cs =>
    if c = ':' then some ([], cs)
    else
      match splitN2Colon cs with
      | some (a, b) => some (c :: a, b)
      | none => none

/-- Embeds the Go struct `VideoInfo` (video.go lines 28-40), restricted to
the fields the claims compare; `StreamURL`, `Metadata` and `Available` are
derived display data and are not modelled. -/
structure VideoInfo where
  id : List Char
  name : List Char
  size : Int
  modified : Int
  contentType : String
  directory : List Char
  path : List Char
  extension : List Char
deriving Repr, DecidableEq

/-- One configured media root (`models.VideoDirectory`) together with the
modelled filesystem tree found at its path. -/
structure VideoDirectory where
  name : List Char
  path : List Char
  enabled : Bool
  tree : FSTree

/-- The catalog configuration: the roots and `video.supported_formats`. -/
structure CatalogConfig where
  directories : List VideoDirectory
  supportedFormats : List (List Char)

/-- Embeds `(*VideoService).findDirectory` (video.go lines 280-287): first
configured root with the given name. -/
def findDirectory (cfg : CatalogConfig) (n : List Char) : Option VideoDirectory :=
  cfg.directories.find? (fun d => d.name == n)

/-- Embeds `(*VideoService).getContentType` (video.go lines 351-366). -/
def getContentType (ext : List Char) : String :=
  if ext = ".mp4".toList then "video/mp4"
  else if ext = ".avi".toList then "video/avi"
  else if ext = ".mov".toList then "video/quicktime"
  else if ext = ".mkv".toList then "video/x-matroska"
  else if ext = ".webm".toList then "video/webm"
  else if ext = ".flv".toList then "video/x-flv"
  else if ext = ".m4v".toList then "video/mp4"
  else if ext = ".3gp".toList then "video/3gpp"
  else "video/mp4"

/-- Embeds `(*VideoService).scanDirectoryRecursive` (video.go lines 100-179).
`fuel` only bounds the recursion depth to make the model structural: the
source aborts at `depth > 10`, so with `fuel = 12` and `depth = 0` the fuel
is never exhausted before the depth check fires.  For each visible entry:
subdirectories are scanned at `depth+1` (an erroring subtree is skipped),
files are kept when the lowercased extension is in the configured formats,
and the record's identifier is the root name, a colon, and the relative path
with the extension trimmed. -/
def scanDirectoryRecursive (cfg : CatalogConfig) (basePath dirName : List Char) :
    Nat → List Char → Nat → FSTree → Option (List VideoInfo)
  | 0, _, _, _ => none
  | fuel + 1, curPath, depth, t =>
    if depth > 10 then none
    else
      match t with
      | .file _ _ => some []
      | .dir es =>
        some (es.foldr
          (fun e acc =>
            (if e.1.head? = some '.' then []
             else
               match e.2 with
               | .dir _ =>
                 match scanDirectoryRecursive cfg basePath dirName fuel
                     (joinPath curPath e.1) (depth + 1) e.2 with
                 | some vs => vs
                 | none => []
               | .file sz mt =>
                 let ext := toLowerName (pathExt e.1)
                 if cfg.supportedFormats.contains ext then
                   let filePath := joinPath curPath e.1
                   let rel := if curPath = [] then goTrimSuffix e.1 ext
                              else goTrimSuffix filePath ext
                   [{ id := dirName ++ ':' :: rel
                      name := e.1
                      size := sz
                      modified := mt
                      contentType := getContentType ext
                      directory := dirName
                      path := joinPath basePath filePath
                      extension := ext }]
                 else []) ++ acc)
          [])

/-- Embeds `(*VideoService).ListVideosInDirectory` (video.go lines 86-97). -/
def ListVideosInDirectory (cfg : CatalogConfig) (directoryName : List Char) :
    Option (List VideoInfo) :=
  match findDirectory cfg directoryName with
  | none => none
  | some d =>
    if d.enabled = false then none
    else scanDirectoryRecursive cfg d.path directoryName 12 [] 0 d.tree

/-- Resolves a relative path, component by component, in a modelled tree;
`os.Stat` on `root/p` succeeds exactly when `lookupC tree (pathComps p)`
is `some`. -/
def lookupC : FSTree → List (List Char) → Option FSTree
  | t, [] => some t
  | .file _ _, _ :: _ => none
  | .dir es, n :: ps =>
    match es.find? (fun e => e.1 == n) with
    | some e => lookupC e.2 ps
    | none => none

/-- `os.Stat` of `root/p` in the modelled tree of the root. -/
def statPath (t : FSTree) (p : List Char) : Option FSTree :=
  lookupC t (pathComps p)

/-- `Stat.Size()` of a modelled entry (directory sizes are host-specific and
modelled as 0; the round-trip theorem's hypotheses ensure a file). -/
def entrySize : FSTree → Int
  | .file sz _ => sz
  | .dir _ => 0

/-- `Stat.ModTime().Unix()` of a modelled entry (0 for directories, as for
`entrySize`). -/
def entryModTime : FSTree → Int
  | .file _ mt => mt
  | .dir _ => 0

/-- Embeds `(*VideoService).findVideoInAllDirectories` (video.go lines
289-319), the fallback used when the identifier has no colon: first enabled
root where the whole identifier plus some supported extension exists. -/
def findVideoInAllDirectoriesAux (cfg : CatalogConfig) (videoID : List Char) :
    List VideoDirectory → Option VideoInfo
  | [] => none
  | d :: ds =>
    if d.enabled = false then findVideoInAllDirectoriesAux cfg videoID ds
    else
      match cfg.supportedFormats.find?
          (fun ext => (statPath d.tree (videoID ++ ext)).isSome) with
      | none => findVideoInAllDirectoriesAux cfg videoID ds
      | some ext0 =>
        match statPath d.tree (videoID ++ ext0) with
        | none => findVideoInAllDirectoriesAux cfg videoID ds
        | some st =>
          let videoPath := joinPath d.path (videoID ++ ext0)
          let ext := toLowerName (pathExt videoPath)
          some
            { id := d.name ++ ':' :: videoID
              name := pathBase videoPath
              size := entrySize st
              modified := entryModTime st
              contentType := getContentType ext
              directory := d.name
              path := videoPath
              extension := ext }

/-- Embeds `(*VideoService).FindVideoByID` (video.go lines 212-255): split
the identifier at the first colon (no colon: fall back to a search over all
roots), look up the root (missing or disabled: not found), try each supported
extension in order against the filesystem (`findVideoFileByRelativePath`,
lines 332-340), and build the record from the first hit. -/
def FindVideoByID (cfg : CatalogConfig) (videoID : List Char) : Option VideoInfo :=
  match splitN2Colon videoID with
  | none => findVideoInAllDirectoriesAux cfg videoID cfg.directories
  | some (directoryName, relativePath) =>
    match findDirectory cfg directoryName with
    | none => none
    | some d =>
      if d.enabled = false then none
      else
        match cfg.supportedFormats.find?
            (fun ext => (statPath d.tree (relativePath ++ ext)).isSome) with
        | none => none
        | some ext0 =>
          match statPath d.tree (relativePath ++ ext0) with
          | none => none
          | some st =>
            let videoPath := joinPath d.path (relativePath ++ ext0)
            let ext := toLowerName (pathExt videoPath)
            some
              { id := videoID
                name := pathBase videoPath
                size := entrySize st
                modified := entryModTime st
                contentType := getContentType ext
                directory := directoryName
                path := videoPath
                extension := ext }

/-- The stem of a record's identifier: everything after the first colon. -/
def stemOf (r : VideoInfo) : List Char :=
  match splitN2Colon r.id with
  | some p => p.2
  | none => []

/-- Well-formedness of a modelled directory tree: entry names within one
directory are distinct, non-empty, slash-free, and have lowercase extensions
(`ToLower` fixes them). -/
inductive WellFormedTree : FSTree → Prop where
  | file (sz mt : Int) : WellFormedTree (.file sz mt)
  | dir (es : List (List Char × FSTree))
      (hnd : (es.map Prod.fst).Nodup)
      (hgood : ∀ e ∈ es, e.1 ≠ [] ∧ '/' ∉ e.1
        ∧ toLowerName (pathExt e.1) = pathExt e.1)
      (hsub : ∀ e ∈ es, WellFormedTree e.2) :
      WellFormedTree (.dir es)

/-! ## Path lemmas for the catalog -/

theorem pathComps_joinPath (a b : List Char) (hb : b ≠ []) (hb2 : '/' ∉ b) :
    pathComps (joinPath a b) = pathComps a ++ [b] := by
  by_cases ha : a = []
  · subst ha
    show pathComps b = pathComps [] ++ [b]
    rw [show pathComps ([] : List Char) = [] from rfl, List.nil_append]
    unfold pathComps
    rw [if_neg hb, splitSep_not_mem '/' b hb2]
  · unfold joinPath pathComps
    rw [if_neg ha, if_neg ha, if_neg (show ¬ (a ++ '/' :: b = []) by simp),
      splitSep_append, splitSep_not_mem '/' b hb2]

theorem getLastD_append_of_ne_nil (l₁ l₂ : List (List Char)) (h : l₂ ≠ []) :
    ∀ d, (l₁ ++ l₂).getLastD d = l₂.getLastD d := by
  induction l₁ with
  | nil => intro d; rfl
  | cons x l₁ ih =>
    intro d
    rw [List.cons_append, List.getLastD_cons, ih x]
    rcases List.exists_cons_of_ne_nil h with ⟨y, t, rfl⟩
    rw [List.getLastD_cons, List.getLastD_cons]

theorem pathBase_append (a b : List Char) : pathBase (a ++ '/' :: b) = pathBase b := by
  unfold pathBase
  rw [splitSep_append]
  exact getLastD_append_of_ne_nil _ _ (splitSep_ne_nil '/' b) []

theorem pathBase_no_slash (n : List Char) (h : '/' ∉ n) : pathBase n = n := by
  unfold pathBase
  rw [splitSep_not_mem '/' n h]
  rfl

theorem pathBase_joinPath (a b : List Char) (h : '/' ∉ b) :
    pathBase (joinPath a b) = b := by
  unfold joinPath
  by_cases ha : a = []
  · rw [if_pos ha]; exact pathBase_no_slash b h
  · rw [if_neg ha, pathBase_append]; exact pathBase_no_slash b h

theorem takeWhile_append_stop (p : Char → Bool) (xs ys : List Char) (y : Char)
    (hy : p y = false) : (xs ++ y :: ys).takeWhile p = xs.takeWhile p := by
  induction xs with
  | nil => simp [List.takeWhile, hy]
  | cons x xs ih =>
    simp only [List.cons_append, List.takeWhile]
    cases p x <;> simp [ih]

theorem lastComp_append (a b : List Char) : lastComp (a ++ '/' :: b) = lastComp b := by
  unfold lastComp
  have : (a ++ '/' :: b).reverse = b.reverse ++ '/' :: a.reverse := by
    simp
  rw [this, takeWhile_append_stop _ _ _ '/' (by simp)]

theorem lastComp_no_slash (n : List Char) (h : '/' ∉ n) : lastComp n = n := by
  unfold lastComp
  rw [List.takeWhile_eq_self_iff.mpr, List.reverse_reverse]
  intro c hc
  simp only [decide_eq_true_eq]
  intro hcc
  exact h (by rw [← hcc]; simpa using hc)

theorem pathExt_append (a b : List Char) : pathExt (a ++ '/' :: b) = pathExt b := by
  unfold pathExt
  rw [lastComp_append]

theorem pathExt_joinPath (a b : List Char) : pathExt (joinPath a b) = pathExt b := by
  unfold joinPath
  by_cases ha : a = []
  · rw [if_pos ha]
  · rw [if_neg ha, pathExt_append]

theorem takeWhile_dot_prefix (R : List Char) (h : '.' ∈ R) :
    R.takeWhile (fun c => c ≠ '.') ++ ['.'] <+: R := by
  induction R with
  | nil => cases h
  | cons c R ih =>
    by_cases hc : c = '.'
    · subst hc
      rw [List.takeWhile_cons, if_neg (by simp)]
      exact ⟨R, rfl⟩
    · have hR : '.' ∈ R := by
        rcases List.mem_cons.mp h with h' | h'
        · exact absurd h'.symm hc
        · exact h'
      obtain ⟨t, ht⟩ := ih hR
      rw [List.takeWhile_cons, if_pos (by simp [hc])]
      refine ⟨t, ?_⟩
      simp only [List.cons_append]
      rw [ht]

theorem lastComp_suffix (n : List Char) : lastComp n <:+ n := by
  obtain ⟨t, ht⟩ := List.takeWhile_prefix (l := n.reverse) (p := fun c => c ≠ '/')
  exact ⟨t.reverse, by
    unfold lastComp
    rw [← List.reverse_append, ht, List.reverse_reverse]⟩

theorem pathExt_suffix_lastComp (n : List Char) : pathExt n <:+ lastComp n := by
  unfold pathExt
  split
  · rename_i h
    have h' : '.' ∈ (lastComp n).reverse := by simpa using h
    obtain ⟨t, ht⟩ := takeWhile_dot_prefix (lastComp n).reverse h'
    refine ⟨t.reverse, ?_⟩
    have hrw : ('.' :: ((lastComp n).reverse.takeWhile (fun c => c ≠ '.')).reverse)
        = ((lastComp n).reverse.takeWhile (fun c => c ≠ '.') ++ ['.']).reverse := by
      simp
    rw [hrw, ← List.reverse_append, ht, List.reverse_reverse]
  · exact List.nil_suffix

theorem pathExt_suffix (n : List Char) : pathExt n <:+ n :=
  (pathExt_suffix_lastComp n).trans (lastComp_suffix n)

theorem goTrimSuffix_cancel (s suf : List Char) (h : suf <:+ s) :
    goTrimSuffix s suf ++ suf = s := by
  obtain ⟨p, hp⟩ := h
  unfold goTrimSuffix
  rw [if_pos (by rw [List.isSuffixOf_iff_suffix]; exact ⟨p, hp⟩)]
  subst hp
  rw [show (p ++ suf).length - suf.length = p.length by simp]
  rw [List.take_left]

theorem splitN2Colon_append (a b : List Char) (ha : ':' ∉ a) :
    splitN2Colon (a ++ ':' :: b) = some (a, b) := by
  induction a with
  | nil => simp [splitN2Colon]
  | cons c a ih =>
    have hc : ¬ (c = ':') := fun hh => ha (hh ▸ List.mem_cons_self c a)
    have ih' := ih (fun hm => ha (List.mem_cons_of_mem c hm))
    simp only [List.cons_append, splitN2Colon, List.append_eq, if_neg hc, ih']

theorem find?_entry_of_nodup (es : List (List Char × FSTree)) (e : List Char × FSTree)
    (he : e ∈ es) (hnd : (es.map Prod.fst).Nodup) :
    es.find? (fun x => x.1 == e.1) = some e := by
  induction es with
  | nil => cases he
  | cons b es ih =>
    rcases List.mem_cons.mp he with heq | hmem
    · subst heq
      have hp : (fun (x : List Char × FSTree) => x.1 == e.1) e = true := beq_self_eq_true e.1
      exact List.find?_cons_of_pos es hp
    · have hne : b.1 ≠ e.1 := by
        intro hh
        exact (List.nodup_cons.mp (by simpa using hnd)).1
          (hh ▸ List.mem_map_of_mem Prod.fst hmem)
      have hp : ¬ ((fun (x : List Char × FSTree) => x.1 == e.1) b = true) :=
        fun h => hne (eq_of_beq h)
      rw [List.find?_cons_of_neg es hp]
      exact ih hmem (List.nodup_cons.mp (by simpa using hnd)).2

theorem find?_first_true (l : List (List Char)) (p : List Char → Bool) (a : List Char)
    (ha : a ∈ l) (hpa : p a = true)
    (hbefore : ∀ x ∈ l.takeWhile (fun y => y != a), p x = false) :
    l.find? p = some a := by
  induction l with
  | nil => cases ha
  | cons b l ih =>
    by_cases hb : b = a
    · subst hb
      exact List.find?_cons_of_pos _ hpa
    · have hbin : b ∈ (b :: l).takeWhile (fun y => y != a) := by
        rw [List.takeWhile_cons, if_pos (by simp [hb])]
        exact List.mem_cons_self b _
      have hpb : p b = false := hbefore b hbin
      have hneg : ¬ (p b = true) := by simp [hpb]
      rw [List.find?_cons_of_neg l hneg]
      refine ih ?_ ?_
      · rcases List.mem_cons.mp ha with h' | h'
        · exact absurd h'.symm hb
        · exact h'
      · intro x hx
        refine hbefore x ?_
        rw [List.takeWhile_cons, if_pos (by simp [hb])]
        exact List.mem_cons_of_mem b hx

theorem suffix_joinPath (a b : List Char) : b <:+ joinPath a b := by
  unfold joinPath
  by_cases ha : a = []
  · rw [if_pos ha]
  · rw [if_neg ha]
    exact ⟨a ++ ['/'], by simp⟩

theorem mem_foldr_append {β : Type} (g : β → List VideoInfo) (es : List β) (r : VideoInfo) :
    r ∈ es.foldr (fun e acc => g e ++ acc) [] ↔ ∃ e ∈ es, r ∈ g e := by
  induction es with
  | nil => simp
  | cons b es ih =>
    simp only [List.foldr_cons, List.mem_append, ih, List.mem_cons]
    constructor
    · rintro (h | ⟨e, he, hr⟩)
      · exact ⟨b, Or.inl rfl, h⟩
      · exact ⟨e, Or.inr he, hr⟩
    · rintro ⟨e, he | he, hr⟩
      · exact Or.inl (he ▸ hr)
      · exact Or.inr ⟨e, he, hr⟩

theorem scanDirectoryRecursive_mem (cfg : CatalogConfig) (basePath dirName : List Char) :
    ∀ (fuel : Nat) (curPath : List Char) (depth : Nat) (t : FSTree)
      (vs : List VideoInfo) (r : VideoInfo),
    scanDirectoryRecursive cfg basePath dirName fuel curPath depth t = some vs →
    r ∈ vs → WellFormedTree t →
    ∃ (ps : List (List Char)) (fname filePath : List Char) (sz mt : Int),
      lookupC t (ps ++ [fname]) = some (.file sz mt)
      ∧ pathComps filePath = pathComps curPath ++ ps ++ [fname]
      ∧ pathBase filePath = fname
      ∧ pathExt filePath = pathExt fname
      ∧ cfg.supportedFormats.contains (pathExt fname) = true
      ∧ toLowerName (pathExt fname) = pathExt fname
      ∧ goTrimSuffix filePath (pathExt fname) ++ pathExt fname = filePath
      ∧ r = { id := dirName ++ ':' :: goTrimSuffix filePath (pathExt fname)
              name := fname
              size := sz
              modified := mt
              contentType := getContentType (pathExt fname)
              directory := dirName
              path := joinPath basePath filePath
              extension := pathExt fname } := by
  intro fuel
  induction fuel with
  | zero =>
    intro curPath depth t vs r hscan _ _
    simp [scanDirectoryRecursive] at hscan
  | succ fuel ih =>
    intro curPath depth t vs r hscan hr hwf
    simp only [scanDirectoryRecursive] at hscan
    by_cases hd : depth > 10
    · rw [if_pos hd] at hscan
      exact absurd hscan (by simp)
    rw [if_neg hd] at hscan
    cases t with
    | file sz0 mt0 =>
      have hvs : [] = vs := Option.some.inj hscan
      rw [← hvs] at hr
      exact absurd hr (List.not_mem_nil r)
    | dir es =>
      have hvs := Option.some.inj hscan
      rw [← hvs] at hr
      obtain ⟨e, he, hre⟩ := (mem_foldr_append _ es r).mp hr
      cases hwf with
      | dir _ hnd hgood hsub =>
        obtain ⟨ename, esub⟩ := e
        obtain ⟨hne, hnsl, hlow⟩ := hgood (ename, esub) he
        dsimp only at hne hnsl hlow hre
        by_cases hhid : ename.head? = some '.'
        · rw [if_pos hhid] at hre
          exact absurd hre (List.not_mem_nil r)
        rw [if_neg hhid] at hre
        cases esub with
        | dir es' =>
          cases hrec : scanDirectoryRecursive cfg basePath dirName fuel
              (joinPath curPath ename) (depth + 1) (.dir es') with
          | none =>
            rw [hrec] at hre
            exact absurd hre (List.not_mem_nil r)
          | some vs' =>
            rw [hrec] at hre
            obtain ⟨ps, fname, filePath, sz, mt, B1, B2, B3, B4, B5, B6, B7, B8⟩ :=
              ih (joinPath curPath ename) (depth + 1) (.dir es') vs' r hrec hre
                (hsub (ename, .dir es') he)
            refine ⟨ename :: ps, fname, filePath, sz, mt, ?_, ?_, B3, B4, B5, B6, B7, B8⟩
            · have hfind := find?_entry_of_nodup es (ename, FSTree.dir es') he hnd
              dsimp only at hfind
              rw [List.cons_append]
              simp only [lookupC, hfind]
              exact B1
            · rw [B2, pathComps_joinPath curPath ename hne hnsl]
              simp [List.append_assoc]
        | file sz0 mt0 =>
          have hre' : r ∈ (if cfg.supportedFormats.contains (toLowerName (pathExt ename))
              then [{ id := dirName ++ ':' ::
                        (if curPath = []
                         then goTrimSuffix ename (toLowerName (pathExt ename))
                         else goTrimSuffix (joinPath curPath ename)
                                (toLowerName (pathExt ename)))
                      name := ename
                      size := sz0
                      modified := mt0
                      contentType := getContentType (toLowerName (pathExt ename))
                      directory := dirName
                      path := joinPath basePath (joinPath curPath ename)
                      extension := toLowerName (pathExt ename) }]
              else ([] : List VideoInfo)) := hre
          by_cases hfmt : cfg.supportedFormats.contains (toLowerName (pathExt ename)) = true
          · rw [if_pos hfmt] at hre'
            have hrec : r = _ := List.mem_singleton.mp hre'
            refine ⟨[], ename, joinPath curPath ename, sz0, mt0, ?_, ?_, ?_, ?_, ?_,
              hlow, ?_, ?_⟩
            · have hfind := find?_entry_of_nodup es (ename, FSTree.file sz0 mt0) he hnd
              dsimp only at hfind
              rw [List.nil_append]
              simp only [lookupC, hfind]
            · rw [pathComps_joinPath curPath ename hne hnsl]
              simp
            · exact pathBase_joinPath curPath ename hnsl
            · exact pathExt_joinPath curPath ename
            · rw [← hlow]; exact hfmt
            · exact goTrimSuffix_cancel (joinPath curPath ename) (pathExt ename)
                ((pathExt_suffix ename).trans (suffix_joinPath curPath ename))
            · rw [hrec]
              by_cases hcur : curPath = []
              · subst hcur
                simp [hlow, joinPath]
              · simp [hlow, hcur]
          · rw [if_neg hfmt] at hre'
            exact absurd hre' (List.not_mem_nil r)

theorem pathBase_joinPath_any (a b : List Char) : pathBase (joinPath a b) = pathBase b := by
  unfold joinPath
  by_cases ha : a = []
  · rw [if_pos ha]
  · rw [if_neg ha, pathBase_append]

/-- Claim C6 (amended): with a quiescent, well-formed filesystem (distinct,
non-empty, slash-free entry names with lowercase extensions) and a root name
without a colon, every record `r` produced by `ListVideosInDirectory` whose
stem does not collide with an earlier configured extension (no filesystem
entry exists at `stem ++ ext'` for any supported `ext'` listed before
`r.extension`) resolves back to itself: `FindVideoByID r.id` returns the
original record — same identifier, name, size, modification time, content
type, directory, absolute path and extension; `r.id` is the root name, a
colon, and the file's extension-trimmed relative path. -/
theorem catalog_round_trip (cfg : CatalogConfig) (dirName : List Char)
    (d : VideoDirectory) (vs : List VideoInfo) (r : VideoInfo)
    (hd : findDirectory cfg dirName = some d) (hen : d.enabled = true)
    (hcol : ':' ∉ dirName)
    (hwf : WellFormedTree d.tree)
    (hvs : ListVideosInDirectory cfg dirName = some vs) (hr : r ∈ vs)
    (huniq : ∀ x ∈ cfg.supportedFormats.takeWhile (fun y => y != r.extension),
        statPath d.tree (stemOf r ++ x) = none) :
    FindVideoByID cfg r.id = some r := by
  have hscan : scanDirectoryRecursive cfg d.path dirName 12 [] 0 d.tree = some vs := by
    unfold ListVideosInDirectory at hvs
    rw [hd] at hvs
    dsimp only at hvs
    rw [if_neg (by simp [hen])] at hvs
    exact hvs
  obtain ⟨ps, fname, filePath, sz, mt, B1, B2, B3, B4, B5, B6, B7, B8⟩ :=
    scanDirectoryRecursive_mem cfg d.path dirName 12 [] 0 d.tree vs r hscan hr hwf
  have hrid : r.id = dirName ++ ':' :: goTrimSuffix filePath (pathExt fname) := by rw [B8]
  have hrext : r.extension = pathExt fname := by rw [B8]
  have hsplit : splitN2Colon r.id = some (dirName, goTrimSuffix filePath (pathExt fname)) := by
    rw [hrid]
    exact splitN2Colon_append _ _ hcol
  have hstem : stemOf r = goTrimSuffix filePath (pathExt fname) := by
    unfold stemOf
    rw [hsplit]
  rw [hrext, hstem] at huniq
  have hcomps : pathComps filePath = ps ++ [fname] := by
    rw [B2]
    simp [pathComps]
  have hstatFile : statPath d.tree (goTrimSuffix filePath (pathExt fname) ++ pathExt fname)
      = some (.file sz mt) := by
    rw [B7]
    unfold statPath
    rw [hcomps]
    exact B1
  have hmem : pathExt fname ∈ cfg.supportedFormats := List.elem_iff.mp B5
  have hfind : cfg.supportedFormats.find?
      (fun x => (statPath d.tree (goTrimSuffix filePath (pathExt fname) ++ x)).isSome)
      = some (pathExt fname) := by
    refine find?_first_true _ _ _ hmem ?_ ?_
    · rw [hstatFile]
      rfl
    · intro x hx
      simp [huniq x hx]
  unfold FindVideoByID
  rw [hsplit]
  dsimp only
  rw [hd]
  dsimp only
  rw [if_neg (by simp [hen])]
  rw [hfind]
  dsimp only
  rw [hstatFile]
  dsimp only
  rw [B7, pathBase_joinPath_any d.path filePath, B3, pathExt_joinPath d.path filePath,
    B4, B6, hrid, B8]
  rfl

/-- A root holding two files that share the stem `a`: `a.mp4` and `a.avi`. -/
def collisionTree : FSTree :=
  .dir [("a.mp4".toList, .file 1 0), ("a.avi".toList, .file 2 0)]

/-- A catalog with the root `R` at `/m` over `collisionTree`, supported
formats `.mp4` then `.avi`. -/
def collisionCfg : CatalogConfig :=
  ⟨[⟨"R".toList, "/m".toList, true, collisionTree⟩], [".mp4".toList, ".avi".toList]⟩

/-- The record the scan produces for `a.avi` (identifier `R:a`). -/
def collisionRec : VideoInfo :=
  ⟨"R:a".toList, "a.avi".toList, 2, 0, "video/avi", "R".toList,
    "/m/a.avi".toList, ".avi".toList⟩

/-- Claim C6 (counterexample): the claim states that every record listed by
`ListVideosInDirectory` resolves back to itself.  With two files `a.mp4` and
`a.avi` sharing the stem `a`, both records get the identifier `R:a`, and
`FindVideoByID "R:a"` tries the configured extensions in order, so the record
of `a.avi` resolves to the record of `a.mp4` — a different path, name, size,
content type and extension. -/
theorem catalog_round_trip_counterexample :
    collisionRec ∈ (ListVideosInDirectory collisionCfg "R".toList).getD []
    ∧ FindVideoByID collisionCfg collisionRec.id ≠ some collisionRec
    ∧ FindVideoByID collisionCfg collisionRec.id
        = some ⟨"R:a".toList, "a.mp4".toList, 1, 0, "video/mp4", "R".toList,
            "/m/a.mp4".toList, ".mp4".toList⟩ := by
  decide

/-- A collision-free root: one file `movie.mp4` of size 16, mtime 5. -/
def cleanTree : FSTree := .dir [("movie.mp4".toList, .file 16 5)]

/-- The configured root `movies` at `/m` over `cleanTree`. -/
def cleanDir : VideoDirectory := ⟨"movies".toList, "/m".toList, true, cleanTree⟩

/-- A catalog with the single root `movies`. -/
def cleanCfg : CatalogConfig := ⟨[cleanDir], [".mp4".toList, ".avi".toList]⟩

/-- The record the scan produces for `movie.mp4`. -/
def cleanRec : VideoInfo :=
  ⟨"movies:movie".toList, "movie.mp4".toList, 16, 5, "video/mp4", "movies".toList,
    "/m/movie.mp4".toList, ".mp4".toList⟩

theorem cleanTree_wf : WellFormedTree cleanTree := by
  show WellFormedTree (.dir [("movie.mp4".toList, .file 16 5)])
  refine WellFormedTree.dir _ (by decide) (by decide) ?_
  intro e he
  rw [List.mem_singleton] at he
  rw [he]
  exact WellFormedTree.file 16 5

/-- Witness for claim C6 (amended): over the collision-free root, the scanned
record of `movie.mp4` resolves back to itself. -/
theorem catalog_round_trip_witness :
    FindVideoByID cleanCfg ("movies:movie".toList) = some cleanRec :=
  catalog_round_trip cleanCfg "movies".toList cleanDir [cleanRec] cleanRec
    rfl rfl (by decide) cleanTree_wf (by decide) (by decide)
    (fun x hx => absurd hx (List.not_mem_nil x))
